import Mathlib

/-!
Shallow embedding of the detection head of `libs/modeling/meta_archs.py`
(class `PtTransformer`): label assignment, offset decoding, loss
combination, inference scoring and postprocessing.  Machine floats are
modelled by exact rationals; the float value `inf` used by the label
assigner is modelled by `⊤ : WithTop ℚ`; IEEE `NaN` values are modelled
by `none : Option ℚ`; a Python `KeyError` on a dictionary lookup is
modelled by `Option`.
-/

namespace TAD

/-- One feature-grid location, a row of `concat_points`:
`(t, regression range min, regression range max, stride)`. -/
structure GtPoint where
  t : ℚ
  regMin : ℚ
  regMax : ℚ
  stride : ℚ
deriving DecidableEq, Repr

/-- One ground-truth segment `(start, end)` of `gt_segment`. -/
structure Segment where
  segStart : ℚ
  segEnd : ℚ
deriving DecidableEq, Repr

/-- Default segment used to totalize list indexing (indexing in the
source is always in bounds). -/
def dfltSeg : Segment := ⟨0, 0⟩

/-- Configuration consumed by `label_points_single_video`:
`train_center_sample` (`'radius'` or `'none'`), the center sample
radius, and `num_classes`. -/
structure AssignCfg where
  centerSampleIsRadius : Bool
  centerSampleRadius : ℚ
  numClasses : ℕ
deriving DecidableEq, Repr

/-- Duration of a segment: `lens = gt_segment[:, 1] - gt_segment[:, 0]`. -/
def segLen (s : Segment) : ℚ := s.segEnd - s.segStart

/-- Left distance: `left = concat_points[:, 0, None] - gt_segs[:, :, 0]`. -/
def leftDist (p : GtPoint) (s : Segment) : ℚ := p.t - s.segStart

/-- Right distance: `right = gt_segs[:, :, 1] - concat_points[:, 0, None]`. -/
def rightDist (p : GtPoint) (s : Segment) : ℚ := s.segEnd - p.t

/-- The `inside_gt_seg_mask` test of `label_points_single_video`: with
center sampling, the point must lie strictly inside the radius window
clipped to the segment; otherwise strictly inside the segment. -/
def insideGtSeg (cfg : AssignCfg) (p : GtPoint) (s : Segment) : Bool :=
  if cfg.centerSampleIsRadius then
    let center := (s.segStart + s.segEnd) / 2
    let tMin := center - p.stride * cfg.centerSampleRadius
    let tMax := center + p.stride * cfg.centerSampleRadius
    let cbLeft := p.t - max tMin s.segStart
    let cbRight := min tMax s.segEnd - p.t
    decide (0 < min cbLeft cbRight)
  else
    decide (0 < min (leftDist p s) (rightDist p s))

/-- The `inside_regress_range` test: the larger of the two distances
must lie in the level's regression range `[regMin, regMax]`. -/
def insideRegressRange (p : GtPoint) (s : Segment) : Bool :=
  let m := max (leftDist p s) (rightDist p s)
  decide (p.regMin ≤ m) && decide (m ≤ p.regMax)

/-- A segment is a candidate for a point when it passes both the
inside test and the regression-range test (the two `masked_fill_`
calls keep exactly these entries finite). -/
def isCandidate (cfg : AssignCfg) (p : GtPoint) (s : Segment) : Bool :=
  insideGtSeg cfg p s && insideRegressRange p s

/-- The masked duration of segment `i` for point `p`: the two
`lens.masked_fill_` calls set non-candidate entries to `float('inf')`,
modelled by `⊤`. -/
def maskedLenAt (cfg : AssignCfg) (segs : List Segment) (p : GtPoint) (i : ℕ) :
    WithTop ℚ :=
  if isCandidate cfg p (segs.getD i dfltSeg) then
    ((segLen (segs.getD i dfltSeg) : ℚ) : WithTop ℚ)
  else ⊤

/-- The value `min_len` of `lens.min(dim=1)` for one point. -/
def minLen (cfg : AssignCfg) (segs : List Segment) (p : GtPoint) : WithTop ℚ :=
  Finset.inf (Finset.range segs.length) (maskedLenAt cfg segs p)

/-- Fold computing the index of the first minimal element, matching the
index returned by `lens.min(dim=1)`. -/
def argminGo (f : ℕ → WithTop ℚ) : List ℕ → ℕ → ℕ
  | [], best => best
  | i :: is, best => argminGo f is (if f i < f best then i else best)

/-- The index `min_len_inds` of `lens.min(dim=1)` for one point. -/
def argminLen (cfg : AssignCfg) (segs : List Segment) (p : GtPoint) : ℕ :=
  argminGo (maskedLenAt cfg segs p) ((List.range segs.length).drop 1) 0

/-- The tie mask `min_len_mask`: entries whose masked duration is
within `1e-3` of `min_len` and finite. -/
def tieMask (cfg : AssignCfg) (segs : List Segment) (p : GtPoint) (i : ℕ) :
    Bool :=
  decide (maskedLenAt cfg segs p i ≤ minLen cfg segs p + ((1 : ℚ) / 1000 : ℚ))
    && decide (maskedLenAt cfg segs p i < ⊤)

/-- One-hot row of `F.one_hot(gt_label, numCls)`. -/
def oneHotQ (numCls : ℕ) (lab : ℕ) (c : ℕ) : ℚ :=
  if c = lab ∧ lab < numCls then 1 else 0

/-- Elementwise clamp of `.clamp_(min=0.0, max=1.0)`. -/
def clamp01 (x : ℚ) : ℚ := min (max x 0) 1

/-- Row `p`, column `c` of the matrix product `min_len_mask @
gt_label_one_hot` (primary vocabulary). -/
def clsTargetRaw (cfg : AssignCfg) (segs : List Segment) (labels : List ℕ)
    (p : GtPoint) (c : ℕ) : ℚ :=
  ∑ i ∈ Finset.range segs.length,
    (if tieMask cfg segs p i then (1 : ℚ) else 0) *
      oneHotQ cfg.numClasses (labels.getD i 0) c

/-- Row `p`, column `c` of `min_len_mask @ gt_label_one_hot2`
(secondary 200-way vocabulary). -/
def clipTargetRaw (cfg : AssignCfg) (segs : List Segment) (labels : List ℕ)
    (p : GtPoint) (c : ℕ) : ℚ :=
  ∑ i ∈ Finset.range segs.length,
    (if tieMask cfg segs p i then (1 : ℚ) else 0) *
      oneHotQ 200 (labels.getD i 0) c

/-- Entry of the returned `cls_targets` after clamping (the `num_gts ==
0` early return produces the same all-zero row, since the sum over an
empty segment list is zero). -/
def cls_targets_at (cfg : AssignCfg) (segs : List Segment) (labels : List ℕ)
    (p : GtPoint) (c : ℕ) : ℚ :=
  clamp01 (clsTargetRaw cfg segs labels p c)

/-- Entry of the returned `clip_targets` after clamping. -/
def clip_targets_at (cfg : AssignCfg) (segs : List Segment) (labels : List ℕ)
    (p : GtPoint) (c : ℕ) : ℚ :=
  clamp01 (clipTargetRaw cfg segs labels p c)

/-- The returned regression target row: the `num_gts == 0` early
return yields `(0, 0)`; otherwise row `min_len_inds` of `reg_targets`,
divided by the point's stride. -/
def reg_targets_at (cfg : AssignCfg) (segs : List Segment) (p : GtPoint) :
    ℚ × ℚ :=
  if segs.length = 0 then (0, 0)
  else
    let i := argminLen cfg segs p
    let s := segs.getD i dfltSeg
    (leftDist p s / p.stride, rightDist p s / p.stride)

/-! ### Offset decoding (`decode_offset`, Trident distribution mode)

Values that may be IEEE `NaN` are modelled by `Option ℚ`, `none`
standing for `NaN`; `NaN` propagates through addition and
multiplication as in floating point. -/

/-- Floating-point value that may be `NaN` (`none`). -/
abbrev FpVal := Option ℚ

/-- NaN-propagating addition. -/
def fpAdd : FpVal → FpVal → FpVal
  | some a, some b => some (a + b)
  | _, _ => none

/-- NaN-propagating multiplication by a (non-NaN) constant. -/
def fpMulConst : FpVal → ℚ → FpVal
  | some a, c => some (a * c)
  | none, _ => none

/-- The test `torch.isnan`. -/
def fpIsNan (x : FpVal) : Bool := x.isNone

/-- NaN-propagating sum of a list (accumulation order is irrelevant to
NaN contamination). -/
def fpSum (l : List FpVal) : FpVal := l.foldr fpAdd (some 0)

/-- Line `pred_left_dis = pred_left_dis.masked_fill(torch.isnan(pred_right_dis), 0)`
of `decode_offset`: the left distribution is masked using the NaN
positions of the right distribution. -/
def masked_left_dis (ld rd : List FpVal) : List FpVal :=
  List.zipWith (fun lv rv => if fpIsNan rv then some 0 else lv) ld rd

/-- Line `pred_right_dis = pred_right_dis.masked_fill(torch.isnan(pred_right_dis), 0)`. -/
def masked_right_dis (rd : List FpVal) : List FpVal :=
  rd.map (fun rv => if fpIsNan rv then some 0 else rv)

/-- Bin indices `torch.arange(max_range_num - 1, -1, -1)` for the left
side (reversed). -/
def left_range_idx (m : ℕ) : List ℚ :=
  (List.range m).map (fun b => ((m - 1 - b : ℕ) : ℚ))

/-- Bin indices `torch.arange(max_range_num)` for the right side. -/
def right_range_idx (m : ℕ) : List ℚ :=
  (List.range m).map (fun b => (b : ℚ))

/-- Expectation `torch.matmul(pred_left_dis, left_range_idx)` at one
location, after the masking step. -/
def decoded_offset_left (m : ℕ) (ld rd : List FpVal) : FpVal :=
  fpSum (List.zipWith fpMulConst (masked_left_dis ld rd) (left_range_idx m))

/-- Expectation `torch.matmul(pred_right_dis, right_range_idx)` at one
location, after the masking step. -/
def decoded_offset_right (m : ℕ) (rd : List FpVal) : FpVal :=
  fpSum (List.zipWith fpMulConst (masked_right_dis rd) (right_range_idx m))

/-! ### Inference scoring (`inference_single_video`, one pyramid level)

The sigmoid is kept abstract as a parameter `σ`, exactly where the
source calls `.sigmoid()`. -/

/-- Value `clip_j` of `torch.max(clip_i, dim=1, keepdim=True)` at one
location: the maximum over the secondary-vocabulary logits. -/
def clipMaxLogit (c2 : ℕ) (h : c2 ≠ 0) (row : Fin c2 → ℚ) : ℚ :=
  haveI : Nonempty (Fin c2) := ⟨⟨0, Nat.pos_of_ne_zero h⟩⟩
  Finset.univ.sup' Finset.univ_nonempty row

/-- The combined probability
`combined_prob = alpha * cls_i.sigmoid() + beta * clip_j.sigmoid()`
with `alpha = 0.7`, `beta = 0.3`; `clip_j` broadcasts over classes. -/
def combined_prob (tl c c2 : ℕ) (h2 : c2 ≠ 0) (σ : ℚ → ℚ)
    (cls : Fin tl → Fin c → ℚ) (clip : Fin tl → Fin c2 → ℚ)
    (t : Fin tl) (k : Fin c) : ℚ :=
  (7 / 10 : ℚ) * σ (cls t k) + (3 / 10 : ℚ) * σ (clipMaxLogit c2 h2 (clip t))

/-- The masked probability `combined_prob * mask_i.unsqueeze(-1)`. -/
def masked_prob (tl c c2 : ℕ) (h2 : c2 ≠ 0) (σ : ℚ → ℚ)
    (cls : Fin tl → Fin c → ℚ) (clip : Fin tl → Fin c2 → ℚ)
    (mask : Fin tl → Bool) (t : Fin tl) (k : Fin c) : ℚ :=
  combined_prob tl c c2 h2 σ cls clip t k * (if mask t then 1 else 0)

/-- The flattened score list `pred_prob = (...).flatten()`: row-major
flattening of the `[T, C]` masked probability map. -/
def pred_prob_flat (tl c c2 : ℕ) (h2 : c2 ≠ 0) (σ : ℚ → ℚ)
    (cls : Fin tl → Fin c → ℚ) (clip : Fin tl → Fin c2 → ℚ)
    (mask : Fin tl → Bool) (j : Fin (tl * c)) : ℚ :=
  have hj : j.val < tl * c := j.isLt
  have hc : 0 < c := by
    have h1 : 0 < tl * c := Nat.lt_of_le_of_lt (Nat.zero_le _) hj
    exact Nat.pos_of_ne_zero (fun h0 => by simp [h0] at h1)
  masked_prob tl c c2 h2 σ cls clip mask
    ⟨j.val / c, (Nat.div_lt_iff_lt_mul hc).mpr hj⟩
    ⟨j.val % c, Nat.mod_lt _ hc⟩

/-! ### Loss computation (`losses`)

One `LossRow` models one location of the concatenated `(B, FT)` index
space after `torch.cat`/`torch.stack`: its validity-mask bit, its
primary and secondary classification targets and logits, its ground
truth offset and its per-class decoded offsets (Trident mode).  The
external loss primitives `sigmoid_focal_loss` (elementwise),
`ctr_giou_loss_1d` and `ctr_diou_loss_1d` are black-box collaborators
and appear as function parameters. -/

/-- One location of the flattened batch seen by `losses`. -/
structure LossRow where
  valid : Bool
  gt_cls : List ℚ
  gt_cls2 : List ℚ
  cls_logits : List ℚ
  clip_logits : List ℚ
  gt_offset : ℚ × ℚ
  decoded : List (ℚ × ℚ)
deriving DecidableEq, Repr

/-- Default row used to totalize list indexing. -/
def dfltLossRow : LossRow := ⟨false, [], [], [], [], (0, 0), []⟩

/-- Configuration consumed by `losses`. -/
structure LossCfg where
  num_classes : ℕ
  label_smoothing : ℚ
  loss_weight : ℚ
  loss_norm_in : ℚ
deriving DecidableEq, Repr

/-- The positive mask
`pos_mask = torch.logical_and((gt_cls.sum(-1) > 0), valid_mask)`. -/
def row_pos (r : LossRow) : Bool := decide (0 < r.gt_cls.sum) && r.valid

/-- The count `num_pos = pos_mask.sum().item()`. -/
def num_pos (rows : List LossRow) : ℕ := (rows.filter row_pos).length

/-- The updated EMA loss normalizer
`0.9 * loss_normalizer + 0.1 * max(num_pos, 1)`. -/
def loss_normalizer_out (cfg : LossCfg) (rows : List LossRow) : ℚ :=
  (9 / 10 : ℚ) * cfg.loss_norm_in + (1 / 10 : ℚ) * ((max (num_pos rows) 1 : ℕ) : ℚ)

/-- Label smoothing `v * (1 - s) + s / (numCls + 1)` applied to a
target entry. -/
def smoothTarget (s : ℚ) (numCls : ℕ) (v : ℚ) : ℚ :=
  v * (1 - s) + s / ((numCls : ℚ) + 1)

/-- The primary classification loss: elementwise focal loss over valid
locations, with each element whose smoothed target exceeds the
background value rescaled by `(1 - iou_rate)` (the Trident coupling,
`iou_weight_power = 1`), summed and divided by the loss normalizer. -/
def cls_loss_of (focal : ℚ → ℚ → ℚ) (giou : ℚ × ℚ → ℚ × ℚ → ℚ)
    (cfg : LossCfg) (rows : List LossRow) : ℚ :=
  (((rows.filter (·.valid)).map (fun r =>
      ((r.cls_logits.zip (r.gt_cls.zip r.decoded)).map (fun e =>
        let tgt := smoothTarget cfg.label_smoothing cfg.num_classes e.2.1
        let base := focal e.1 tgt
        if cfg.label_smoothing / ((cfg.num_classes : ℚ) + 1) < tgt then
          base * (1 - giou e.2.2 r.gt_offset)
        else base)).sum)).sum)
    / loss_normalizer_out cfg rows

/-- The secondary (clip) classification loss: focal loss over valid
locations against the 200-way smoothed targets, summed and divided by
the loss normalizer. -/
def clip_loss_of (focal : ℚ → ℚ → ℚ) (cfg : LossCfg) (rows : List LossRow) :
    ℚ :=
  (((rows.filter (·.valid)).map (fun r =>
      ((r.clip_logits.zip r.gt_cls2).map (fun e =>
        focal e.1 (smoothTarget cfg.label_smoothing 200 e.2))).sum)).sum)
    / loss_normalizer_out cfg rows

/-- The selected predicted offsets
`decoded_offsets[pos_mask][gt_cls[pos_mask].bool()]`: row-major over
positive rows, keeping the decoded offset of each class whose target
entry is non-zero. -/
def pred_offsets_sel (rows : List LossRow) : List (ℚ × ℚ) :=
  (rows.filter row_pos).flatMap (fun r =>
    (r.decoded.zip r.gt_cls).filterMap (fun p =>
      if p.2 ≠ 0 then some p.1 else none))

/-- The gather indices `vid = torch.where(gt_cls[pos_mask])[0]`: the
row index (within the positive rows) of each non-zero target entry, in
row-major order. -/
def vid_indices (rows : List LossRow) : List ℕ :=
  ((rows.filter row_pos).enum).flatMap (fun ia =>
    ia.2.gt_cls.filterMap (fun v => if v ≠ 0 then some ia.1 else none))

/-- The gathered ground-truth offsets
`torch.stack(gt_offsets)[pos_mask][vid]`. -/
def gt_offsets_sel (rows : List LossRow) : List (ℚ × ℚ) :=
  (vid_indices rows).map (fun k =>
    ((rows.filter row_pos).getD k dfltLossRow).gt_offset)

/-- The regression loss: `0 * pred_offsets.sum()` when there are no
positives, otherwise `ctr_diou_loss_1d(pred_offsets, gt_offsets,
reduction='sum') / loss_normalizer`. -/
def reg_loss_of (diou : ℚ × ℚ → ℚ × ℚ → ℚ) (cfg : LossCfg)
    (rows : List LossRow) : ℚ :=
  if num_pos rows = 0 then
    0 * ((pred_offsets_sel rows).map (fun o => o.1 + o.2)).sum
  else
    (((pred_offsets_sel rows).zip (gt_offsets_sel rows)).map (fun pg =>
      diou pg.1 pg.2)).sum / loss_normalizer_out cfg rows

/-- The weight applied to the regression loss: the configured
`train_loss_weight` when positive, otherwise
`cls_loss.detach() / max(reg_loss.item(), 0.01)`. -/
def loss_weight_used (cfg : LossCfg) (clsL regL : ℚ) : ℚ :=
  if 0 < cfg.loss_weight then cfg.loss_weight
  else clsL / max regL (1 / 100 : ℚ)

/-- The returned `final_loss` with `alpha = 0.3`, `beta = 0.4`:
`alpha * cls_loss + clip_loss * beta + reg_loss * loss_weight * (1 - alpha - beta)`. -/
def final_loss_of (focal : ℚ → ℚ → ℚ) (giou diou : ℚ × ℚ → ℚ × ℚ → ℚ)
    (cfg : LossCfg) (rows : List LossRow) : ℚ :=
  let a : ℚ := 3 / 10
  let b : ℚ := 4 / 10
  let clsL := cls_loss_of focal giou cfg rows
  let clipL := clip_loss_of focal cfg rows
  let regL := reg_loss_of diou cfg rows
  a * clsL + clipL * b + regL * loss_weight_used cfg clsL regL * (1 - a - b)

/-- Modelled from the spec sentence of claim C7 (refinement target):
final loss as the claim words it, with the auto-balancing fallback
weight being the plain ratio of classification loss to regression
loss. -/
def final_loss_claimed (clsL clipL regL w : ℚ) : ℚ :=
  (3 / 10 : ℚ) * clsL + (4 / 10 : ℚ) * clipL +
    (3 / 10 : ℚ) * regL * (if 0 < w then w else clsL / regL)

/-! ### Postprocessing (`postprocessing`, with `nms_method = 'none'`)

A per-video result dictionary is modelled by `PPResult`; the meta
entries read by `postprocessing` are `Option`-valued because the
dictionaries it itself returns do not contain them (a lookup of a
missing key raises `KeyError`, modelled by `none`). -/

/-- One per-video result dictionary. -/
structure PPResult where
  video_id : ℕ
  fps : Option ℚ
  duration : Option ℚ
  feat_stride : Option ℚ
  feat_num_frames : Option ℚ
  segments : List (ℚ × ℚ)
  scores : List ℚ
  labels : List ℕ
deriving DecidableEq, Repr

/-- The grid-to-seconds map `(segs * stride + 0.5 * nframes) / fps`. -/
def toRealTime (stride nframes fps g : ℚ) : ℚ :=
  (g * stride + (1 / 2 : ℚ) * nframes) / fps

/-- The first truncation `segs[segs <= 0.0] *= 0.0`. -/
def clipLow (x : ℚ) : ℚ := if x ≤ 0 then x * 0 else x

/-- The second truncation
`segs[segs >= vlen] = segs[segs >= vlen] * 0.0 + vlen`, applied after
the first one. -/
def clipHigh (vlen x : ℚ) : ℚ := if vlen ≤ x then x * 0 + vlen else x

/-- One boundary value after conversion and both truncations. -/
def convertSeg (stride nframes fps vlen g : ℚ) : ℚ :=
  clipHigh vlen (clipLow (toRealTime stride nframes fps g))

/-- The body of the `postprocessing` loop for one video with
`nms_method = 'none'`: read the meta entries (failing on a missing
key), convert the segments to seconds when there is at least one, and
repack only `video_id`, `segments`, `scores`, `labels`. -/
def postprocessOne (r : PPResult) : Option PPResult := do
  let fps ← r.fps
  let vlen ← r.duration
  let stride ← r.feat_stride
  let nframes ← r.feat_num_frames
  let segs :=
    if 0 < r.segments.length then
      r.segments.map (fun sp =>
        (convertSeg stride nframes fps vlen sp.1,
         convertSeg stride nframes fps vlen sp.2))
    else r.segments
  some { video_id := r.video_id, fps := none, duration := none,
         feat_stride := none, feat_num_frames := none,
         segments := segs, scores := r.scores, labels := r.labels }

/-- The full `postprocessing` call with `nms_method = 'none'`. -/
def postprocessing (rs : List PPResult) : Option (List PPResult) :=
  rs.mapM postprocessOne

/-! ### Forward preamble (`forward`, feature fusion)

The in-place insertion `video['concatenated_feats'] = ...` into each
caller-owned dictionary is modelled by explicit state passing: the
post-call state of the input list is the value of `forward_prep`.  The
two learned linear layers `fc_feats` and `fc_clip_feats` are
parameters acting on one channel row. -/

/-- Transpose of a channels-by-time matrix stored as a list of rows. -/
def transposeLL (rows : List (List ℚ)) : List (List ℚ) := rows.transpose

/-- Elementwise `F.relu`. -/
def reluVec (v : List ℚ) : List ℚ := v.map (fun x => max x 0)

/-- Elementwise addition of two rows. -/
def addVec (a b : List ℚ) : List ℚ := List.zipWith (· + ·) a b

/-- The residual projection `F.relu(fc(x) + x)` applied to every row of
the transposed feature matrix. -/
def residualMap (fc : List ℚ → List ℚ) (rows : List (List ℚ)) :
    List (List ℚ) :=
  rows.map (fun r => reluVec (addVec (fc r) r))

/-- The value stored into `video['concatenated_feats']`: transpose,
residual-project both modalities, transpose back and concatenate along
the channel dimension. -/
def concat_feats (fcF fcC : List ℚ → List ℚ)
    (feats clipFeats : List (List ℚ)) : List (List ℚ) :=
  transposeLL (residualMap fcF (transposeLL feats)) ++
    transposeLL (residualMap fcC (transposeLL clipFeats))

/-- One per-video input record; `concatenated_feats` is the key absent
before the forward call. -/
structure VideoRec where
  feats : List (List ℚ)
  clip_feats : List (List ℚ)
  concatenated_feats : Option (List (List ℚ))
deriving DecidableEq, Repr

/-- Default record used to totalize list indexing. -/
def dfltVideoRec : VideoRec := ⟨[], [], none⟩

/-- The state of the caller's `video_list` after the first loop of
`forward`: every record has `concatenated_feats` set. -/
def forward_prep (fcF fcC : List ℚ → List ℚ) (vs : List VideoRec) :
    List VideoRec :=
  vs.map (fun v =>
    { v with
      concatenated_feats := some (concat_feats fcF fcC v.feats v.clip_feats) })

/-! ### Concrete inputs used by counterexamples and witnesses -/

/-- Assignment config with center sampling off and two classes. -/
def cfgC1 : AssignCfg := ⟨false, 0, 2⟩

/-- A single ground-truth segment `(0, 1)`. -/
def segsC1 : List Segment := [⟨0, 1⟩]

/-- Labels for `segsC1`. -/
def labelsC1 : List ℕ := [0]

/-- A grid point at `t = 10` with regression range `[0, 4]`, stride 1:
far outside `segsC1`, hence a candidate for no segment. -/
def pointC1 : GtPoint := ⟨10, 0, 4, 1⟩

/-- Two overlapping segments with durations `4` and `4 + 1/2500`,
within the `1e-3` tie tolerance of each other. -/
def segsC3 : List Segment := [⟨0, 4⟩, ⟨1 / 2, 9 / 2 + 1 / 2500⟩]

/-- Labels for `segsC3`: two distinct classes. -/
def labelsC3 : List ℕ := [0, 1]

/-- A grid point at `t = 2`, inside both segments of `segsC3`, with
regression range `[0, 10]` and stride 1. -/
def pointC3 : GtPoint := ⟨2, 0, 10, 1⟩

/-- A single candidate segment containing `pointC3`. -/
def segsC5 : List Segment := [⟨0, 4⟩]

/-- Loss configuration: one class, no label smoothing, non-positive
static loss weight (so the auto-balancing fallback is taken), EMA
normalizer input 1. -/
def lossCfgC7 : LossCfg := ⟨1, 0, 0, 1⟩

/-- One valid positive location with unit targets and logits, ground
truth offset `(1, 1)` and one decoded offset `(1, 1)`. -/
def lossRowsC7 : List LossRow := [⟨true, [1], [1], [0], [0], (1, 1), [(1, 1)]⟩]

/-- A per-video result dictionary as produced by `inference`: the meta
entries are present, the segments are already within `[0, duration]`. -/
def ppRowC4 : PPResult :=
  ⟨0, some 25, some 100, some 4, some 16, [(1 / 2, 1)], [9 / 10], [3]⟩

/-- A one-video result list for `postprocessing`. -/
def ppResultsC4 : List PPResult := [ppRowC4]

/-- A per-video input record without the `concatenated_feats` key. -/
def videoRecC10 : VideoRec := ⟨[[1]], [[2]], none⟩

end TAD

namespace TAD

/-! ### Theorems -/

/-- A point with no candidate segment has every masked duration equal
to `inf`. -/
theorem maskedLenAt_top_of_no_candidate (cfg : AssignCfg)
    (segs : List Segment) (p : GtPoint)
    (h : ∀ s ∈ segs, isCandidate cfg p s = false) (i : ℕ)
    (hi : i < segs.length) : maskedLenAt cfg segs p i = ⊤ := by
  unfold maskedLenAt
  rw [List.getD_eq_getElem segs dfltSeg hi, h _ (List.getElem_mem hi)]
  simp

/-- A point with no candidate segment has an all-false tie mask. -/
theorem tieMask_false_of_no_candidate (cfg : AssignCfg)
    (segs : List Segment) (p : GtPoint)
    (h : ∀ s ∈ segs, isCandidate cfg p s = false) (i : ℕ)
    (hi : i < segs.length) : tieMask cfg segs p i = false := by
  unfold tieMask
  rw [maskedLenAt_top_of_no_candidate cfg segs p h i hi]
  simp

/-- C1 (amended): for a grid point that is a candidate for no
ground-truth segment, `label_points_single_video` produces an all-zero
primary classification target and an all-zero secondary classification
target; the regression target is `(0, 0)` when the video has no
ground-truth segments at all, but otherwise it is the stride-normalized
distance pair to the segment at the minimum index, which need not be
`(0, 0)`. -/
theorem c1_no_candidate_targets (cfg : AssignCfg) (segs : List Segment)
    (labels : List ℕ) (p : GtPoint)
    (h : ∀ s ∈ segs, isCandidate cfg p s = false) :
    (∀ c, cls_targets_at cfg segs labels p c = 0) ∧
      (∀ c, clip_targets_at cfg segs labels p c = 0) ∧
      (segs = [] → reg_targets_at cfg segs p = (0, 0)) := by
  refine ⟨?_, ?_, ?_⟩
  · intro c
    have hz : clsTargetRaw cfg segs labels p c = 0 := by
      unfold clsTargetRaw
      refine Finset.sum_eq_zero fun i hi => ?_
      rw [tieMask_false_of_no_candidate cfg segs p h i (Finset.mem_range.mp hi)]
      simp
    unfold cls_targets_at
    rw [hz]
    simp [clamp01]
  · intro c
    have hz : clipTargetRaw cfg segs labels p c = 0 := by
      unfold clipTargetRaw
      refine Finset.sum_eq_zero fun i hi => ?_
      rw [tieMask_false_of_no_candidate cfg segs p h i (Finset.mem_range.mp hi)]
      simp
    unfold clip_targets_at
    rw [hz]
    simp [clamp01]
  · intro heq
    subst heq
    simp [reg_targets_at]

/-- The clamped targets are nonnegative. -/
theorem clamp01_nonneg (x : ℚ) : 0 ≤ clamp01 x :=
  le_min (le_max_right x 0) zero_le_one

/-- The clamped targets are at most one. -/
theorem clamp01_le_one (x : ℚ) : clamp01 x ≤ 1 := min_le_right _ _

/-- Clamping a value that is at least one yields exactly one. -/
theorem clamp01_eq_one_of_one_le (x : ℚ) (h : 1 ≤ x) : clamp01 x = 1 := by
  unfold clamp01
  rw [max_eq_left (le_trans zero_le_one h), min_eq_right h]

/-- A candidate segment whose duration is within `1e-3` of `min_len`
is kept by the tie mask. -/
theorem tieMask_true_of_tied (cfg : AssignCfg) (segs : List Segment)
    (p : GtPoint) (i : ℕ)
    (hcand : isCandidate cfg p (segs.getD i dfltSeg) = true)
    (htie : ((segLen (segs.getD i dfltSeg) : ℚ) : WithTop ℚ) ≤
      minLen cfg segs p + ((1 : ℚ) / 1000 : ℚ)) :
    tieMask cfg segs p i = true := by
  unfold tieMask maskedLenAt
  rw [if_pos hcand]
  simp only [Bool.and_eq_true, decide_eq_true_eq]
  exact ⟨htie, WithTop.coe_lt_top _⟩

/-- Every summand of the raw target matrix product is nonnegative. -/
theorem tie_onehot_term_nonneg (cfg : AssignCfg) (segs : List Segment)
    (labels : List ℕ) (p : GtPoint) (numCls c j : ℕ) :
    (0 : ℚ) ≤ (if tieMask cfg segs p j then (1 : ℚ) else 0) *
      oneHotQ numCls (labels.getD j 0) c := by
  unfold oneHotQ
  split_ifs <;> norm_num

/-- A tied candidate pushes the raw primary target at its label to at
least one. -/
theorem clsTargetRaw_one_le_of_tie (cfg : AssignCfg) (segs : List Segment)
    (labels : List ℕ) (p : GtPoint) (i : ℕ) (hi : i < segs.length)
    (hmask : tieMask cfg segs p i = true)
    (hlab : labels.getD i 0 < cfg.numClasses) :
    (1 : ℚ) ≤ clsTargetRaw cfg segs labels p (labels.getD i 0) := by
  unfold clsTargetRaw
  have h0 : ∀ j ∈ Finset.range segs.length,
      (0 : ℚ) ≤ (if tieMask cfg segs p j then (1 : ℚ) else 0) *
        oneHotQ cfg.numClasses (labels.getD j 0) (labels.getD i 0) :=
    fun j _ => tie_onehot_term_nonneg cfg segs labels p _ _ j
  have h1 := Finset.single_le_sum h0 (Finset.mem_range.mpr hi)
  have hfi : (if tieMask cfg segs p i then (1 : ℚ) else 0) *
      oneHotQ cfg.numClasses (labels.getD i 0) (labels.getD i 0) = 1 := by
    have hlabE : labels[i]?.getD 0 < cfg.numClasses := by
      rw [← List.getD_eq_getElem?_getD]
      exact hlab
    unfold oneHotQ
    simp [hmask, hlabE]
  rw [hfi] at h1
  exact h1

/-- A tied candidate pushes the raw secondary target at its label to
at least one. -/
theorem clipTargetRaw_one_le_of_tie (cfg : AssignCfg) (segs : List Segment)
    (labels : List ℕ) (p : GtPoint) (i : ℕ) (hi : i < segs.length)
    (hmask : tieMask cfg segs p i = true)
    (hlab2 : labels.getD i 0 < 200) :
    (1 : ℚ) ≤ clipTargetRaw cfg segs labels p (labels.getD i 0) := by
  unfold clipTargetRaw
  have h0 : ∀ j ∈ Finset.range segs.length,
      (0 : ℚ) ≤ (if tieMask cfg segs p j then (1 : ℚ) else 0) *
        oneHotQ 200 (labels.getD j 0) (labels.getD i 0) :=
    fun j _ => tie_onehot_term_nonneg cfg segs labels p _ _ j
  have h1 := Finset.single_le_sum h0 (Finset.mem_range.mpr hi)
  have hfi : (if tieMask cfg segs p i then (1 : ℚ) else 0) *
      oneHotQ 200 (labels.getD i 0) (labels.getD i 0) = 1 := by
    have hlabE : labels[i]?.getD 0 < 200 := by
      rw [← List.getD_eq_getElem?_getD]
      exact hlab2
    unfold oneHotQ
    simp [hmask, hlabE]
  rw [hfi] at h1
  exact h1

/-- The clamped primary target at the label of a tied candidate is
exactly one. -/
theorem cls_target_one_of_tie (cfg : AssignCfg) (segs : List Segment)
    (labels : List ℕ) (p : GtPoint) (i : ℕ) (hi : i < segs.length)
    (hcand : isCandidate cfg p (segs.getD i dfltSeg) = true)
    (htie : ((segLen (segs.getD i dfltSeg) : ℚ) : WithTop ℚ) ≤
      minLen cfg segs p + ((1 : ℚ) / 1000 : ℚ))
    (hlab : labels.getD i 0 < cfg.numClasses) :
    cls_targets_at cfg segs labels p (labels.getD i 0) = 1 := by
  unfold cls_targets_at
  exact clamp01_eq_one_of_one_le _ (clsTargetRaw_one_le_of_tie cfg segs labels
    p i hi (tieMask_true_of_tied cfg segs p i hcand htie) hlab)

/-- The clamped secondary target at the label of a tied candidate is
exactly one. -/
theorem clip_target_one_of_tie (cfg : AssignCfg) (segs : List Segment)
    (labels : List ℕ) (p : GtPoint) (i : ℕ) (hi : i < segs.length)
    (hcand : isCandidate cfg p (segs.getD i dfltSeg) = true)
    (htie : ((segLen (segs.getD i dfltSeg) : ℚ) : WithTop ℚ) ≤
      minLen cfg segs p + ((1 : ℚ) / 1000 : ℚ))
    (hlab2 : labels.getD i 0 < 200) :
    clip_targets_at cfg segs labels p (labels.getD i 0) = 1 := by
  unfold clip_targets_at
  exact clamp01_eq_one_of_one_le _ (clipTargetRaw_one_le_of_tie cfg segs labels
    p i hi (tieMask_true_of_tied cfg segs p i hcand htie) hlab2)

/-- C3: for a grid point with a candidate segment, every candidate
segment whose duration is within `1e-3` of the minimum masked duration
contributes its one-hot label, so the clamped primary and secondary
targets at that label equal `1` (multi-hot when several near-duplicate
segments tie), and every entry of both target vectors lies in
`[0, 1]`. -/
theorem c3_duration_ties_multihot (cfg : AssignCfg) (segs : List Segment)
    (labels : List ℕ) (p : GtPoint) (i : ℕ) (hi : i < segs.length)
    (hcand : isCandidate cfg p (segs.getD i dfltSeg) = true)
    (htie : ((segLen (segs.getD i dfltSeg) : ℚ) : WithTop ℚ) ≤
      minLen cfg segs p + ((1 : ℚ) / 1000 : ℚ))
    (hlab : labels.getD i 0 < cfg.numClasses)
    (hlab2 : labels.getD i 0 < 200) :
    cls_targets_at cfg segs labels p (labels.getD i 0) = 1 ∧
      clip_targets_at cfg segs labels p (labels.getD i 0) = 1 ∧
      (∀ c, 0 ≤ cls_targets_at cfg segs labels p c ∧
        cls_targets_at cfg segs labels p c ≤ 1) ∧
      (∀ c, 0 ≤ clip_targets_at cfg segs labels p c ∧
        clip_targets_at cfg segs labels p c ≤ 1) := by
  refine ⟨cls_target_one_of_tie cfg segs labels p i hi hcand htie hlab,
    clip_target_one_of_tie cfg segs labels p i hi hcand htie hlab2, ?_, ?_⟩
  · intro c
    unfold cls_targets_at
    exact ⟨clamp01_nonneg _, clamp01_le_one _⟩
  · intro c
    unfold clip_targets_at
    exact ⟨clamp01_nonneg _, clamp01_le_one _⟩

/-- C3 (witness): two near-duplicate overlapping candidate segments
(durations `4` and `4 + 1/2500`) make the point's primary target
multi-hot: both class 0 and class 1 receive value 1. -/
theorem c3_witness :
    cls_targets_at cfgC1 segsC3 labelsC3 pointC3 0 = 1 ∧
      cls_targets_at cfgC1 segsC3 labelsC3 pointC3 1 = 1 := by
  have hmin : minLen cfgC1 segsC3 pointC3 = ((4 : ℚ) : WithTop ℚ) := by
    norm_num [minLen, maskedLenAt, isCandidate, insideGtSeg,
      insideRegressRange, leftDist, rightDist, segLen,
      cfgC1, segsC3, pointC3, dfltSeg,
      Finset.range_succ, Finset.inf_insert, Finset.range_one]
    exact WithTop.coe_le_coe.mpr (by norm_num)
  constructor
  · exact (c3_duration_ties_multihot cfgC1 segsC3 labelsC3 pointC3 0
      (by simp [segsC3])
      (by norm_num [isCandidate, insideGtSeg, insideRegressRange,
        leftDist, rightDist, cfgC1, segsC3, pointC3, dfltSeg])
      (by rw [hmin, ← WithTop.coe_add]
          exact WithTop.coe_le_coe.mpr (by norm_num [segLen, segsC3, dfltSeg]))
      (by simp [labelsC3, cfgC1]) (by simp [labelsC3])).1
  · exact (c3_duration_ties_multihot cfgC1 segsC3 labelsC3 pointC3 1
      (by simp [segsC3])
      (by norm_num [isCandidate, insideGtSeg, insideRegressRange,
        leftDist, rightDist, cfgC1, segsC3, pointC3, dfltSeg])
      (by rw [hmin, ← WithTop.coe_add]
          exact WithTop.coe_le_coe.mpr (by norm_num [segLen, segsC3, dfltSeg]))
      (by simp [labelsC3, cfgC1]) (by simp [labelsC3])).1

/-- The argmin fold returns a value whose image is at most the image
of the initial best and of every scanned index. -/
theorem argminGo_le (f : ℕ → WithTop ℚ) :
    ∀ (l : List ℕ) (best : ℕ),
      f (argminGo f l best) ≤ f best ∧ ∀ j ∈ l, f (argminGo f l best) ≤ f j := by
  intro l
  induction l with
  | nil => exact fun best => ⟨le_refl _, by simp⟩
  | cons i is ih =>
    intro best
    have h := ih (if f i < f best then i else best)
    have hb : f (if f i < f best then i else best) ≤ f best := by
      split_ifs with hlt
      · exact le_of_lt hlt
      · exact le_refl _
    have hii : f (if f i < f best then i else best) ≤ f i := by
      split_ifs with hlt
      · exact le_refl _
      · exact not_lt.mp hlt
    refine ⟨le_trans h.1 hb, ?_⟩
    intro j hj
    rcases List.mem_cons.mp hj with rfl | hj
    · exact le_trans h.1 hii
    · exact h.2 j hj

/-- The argmin fold returns either the initial best or a scanned
index. -/
theorem argminGo_mem (f : ℕ → WithTop ℚ) :
    ∀ (l : List ℕ) (best : ℕ),
      argminGo f l best = best ∨ argminGo f l best ∈ l := by
  intro l
  induction l with
  | nil => exact fun best => Or.inl rfl
  | cons i is ih =>
    intro best
    rcases ih (if f i < f best then i else best) with h | h
    · unfold argminGo
      rw [h]
      split_ifs
      · exact Or.inr (List.mem_cons_self i is)
      · exact Or.inl rfl
    · exact Or.inr (List.mem_cons_of_mem i h)

/-- Index `j` with `1 ≤ j < n` lies in `(range n).drop 1`. -/
theorem mem_drop_one_range {n j : ℕ} (h1 : 1 ≤ j) (hj : j < n) :
    j ∈ (List.range n).drop 1 := by
  obtain ⟨m, rfl⟩ : ∃ m, n = m + 1 := ⟨n - 1, by omega⟩
  rw [List.range_succ_eq_map]
  simp only [List.drop_succ_cons, List.drop_zero]
  obtain ⟨k, rfl⟩ : ∃ k, j = k + 1 := ⟨j - 1, by omega⟩
  exact List.mem_map.mpr ⟨k, List.mem_range.mpr (by omega), rfl⟩

/-- `min_len_inds` minimizes the masked duration over all segment
indices. -/
theorem argminLen_le (cfg : AssignCfg) (segs : List Segment) (p : GtPoint)
    (j : ℕ) (hj : j < segs.length) :
    maskedLenAt cfg segs p (argminLen cfg segs p) ≤ maskedLenAt cfg segs p j := by
  unfold argminLen
  have h := argminGo_le (maskedLenAt cfg segs p) ((List.range segs.length).drop 1) 0
  rcases Nat.eq_zero_or_pos j with h0 | h0
  · subst h0
    exact h.1
  · exact h.2 j (mem_drop_one_range h0 hj)

/-- `min_len_inds` is a valid segment index whenever segments exist. -/
theorem argminLen_lt_length (cfg : AssignCfg) (segs : List Segment)
    (p : GtPoint) (hn : 0 < segs.length) :
    argminLen cfg segs p < segs.length := by
  unfold argminLen
  rcases argminGo_mem (maskedLenAt cfg segs p) ((List.range segs.length).drop 1) 0
    with h | h
  · rw [h]
    exact hn
  · exact List.mem_range.mp (List.mem_of_mem_drop h)

/-- A finite masked duration forces the candidate tests to hold. -/
theorem isCandidate_of_maskedLenAt_lt_top (cfg : AssignCfg)
    (segs : List Segment) (p : GtPoint) (i : ℕ)
    (h : maskedLenAt cfg segs p i < ⊤) :
    isCandidate cfg p (segs.getD i dfltSeg) = true := by
  by_contra hc
  unfold maskedLenAt at h
  rw [if_neg hc] at h
  exact absurd h (lt_irrefl ⊤)

/-- A nonzero clamped classification target forces a true tie-mask
entry at some valid index. -/
theorem exists_tie_of_cls_ne_zero (cfg : AssignCfg) (segs : List Segment)
    (labels : List ℕ) (p : GtPoint) (c : ℕ)
    (h : cls_targets_at cfg segs labels p c ≠ 0) :
    ∃ i, i < segs.length ∧ tieMask cfg segs p i = true := by
  by_contra hno
  push_neg at hno
  apply h
  have hz : clsTargetRaw cfg segs labels p c = 0 := by
    unfold clsTargetRaw
    refine Finset.sum_eq_zero fun i hi => ?_
    have hflt : tieMask cfg segs p i = false := by
      cases hh : tieMask cfg segs p i
      · rfl
      · exact absurd hh (hno i (Finset.mem_range.mp hi))
    rw [hflt]
    simp
  unfold cls_targets_at
  rw [hz]
  simp [clamp01]

/-- C5: for every grid point selected as positive (some nonzero entry
of the primary classification target), the larger of the two raw
distances to its assigned segment (the one whose stride-normalized
distances become the regression target) lies inside the point's
regression range. -/
theorem c5_range_gating (cfg : AssignCfg) (segs : List Segment)
    (labels : List ℕ) (p : GtPoint)
    (h : ∃ c, cls_targets_at cfg segs labels p c ≠ 0) :
    p.regMin ≤ max (leftDist p (segs.getD (argminLen cfg segs p) dfltSeg))
        (rightDist p (segs.getD (argminLen cfg segs p) dfltSeg)) ∧
      max (leftDist p (segs.getD (argminLen cfg segs p) dfltSeg))
        (rightDist p (segs.getD (argminLen cfg segs p) dfltSeg)) ≤ p.regMax ∧
      reg_targets_at cfg segs p =
        (leftDist p (segs.getD (argminLen cfg segs p) dfltSeg) / p.stride,
         rightDist p (segs.getD (argminLen cfg segs p) dfltSeg) / p.stride) := by
  obtain ⟨c, hc⟩ := h
  obtain ⟨i, hi, htie⟩ := exists_tie_of_cls_ne_zero cfg segs labels p c hc
  have htop : maskedLenAt cfg segs p i < ⊤ := by
    unfold tieMask at htie
    simp only [Bool.and_eq_true, decide_eq_true_eq] at htie
    exact htie.2
  have hargtop : maskedLenAt cfg segs p (argminLen cfg segs p) < ⊤ :=
    lt_of_le_of_lt (argminLen_le cfg segs p i hi) htop
  have hcand := isCandidate_of_maskedLenAt_lt_top cfg segs p
    (argminLen cfg segs p) hargtop
  have hrange : insideRegressRange p (segs.getD (argminLen cfg segs p) dfltSeg)
      = true := by
    unfold isCandidate at hcand
    exact (Bool.and_eq_true _ _ |>.mp hcand).2
  unfold insideRegressRange at hrange
  simp only [Bool.and_eq_true, decide_eq_true_eq] at hrange
  have hne : segs.length ≠ 0 := by omega
  refine ⟨hrange.1, hrange.2, ?_⟩
  unfold reg_targets_at
  rw [if_neg hne]

/-- C5 (witness): the range-gating theorem applied to a point at
`t = 2` positive for the segment `(0, 4)`: the larger distance `2`
lies within the range `[0, 10]` and the regression target is the
stride-normalized distance pair. -/
theorem c5_witness :
    pointC3.regMin ≤
        max (leftDist pointC3 (segsC5.getD (argminLen cfgC1 segsC5 pointC3) dfltSeg))
          (rightDist pointC3 (segsC5.getD (argminLen cfgC1 segsC5 pointC3) dfltSeg)) ∧
      max (leftDist pointC3 (segsC5.getD (argminLen cfgC1 segsC5 pointC3) dfltSeg))
          (rightDist pointC3 (segsC5.getD (argminLen cfgC1 segsC5 pointC3) dfltSeg)) ≤
        pointC3.regMax ∧
      reg_targets_at cfgC1 segsC5 pointC3 =
        (leftDist pointC3 (segsC5.getD (argminLen cfgC1 segsC5 pointC3) dfltSeg) /
          pointC3.stride,
         rightDist pointC3 (segsC5.getD (argminLen cfgC1 segsC5 pointC3) dfltSeg) /
          pointC3.stride) := by
  have hcand : isCandidate cfgC1 pointC3 (segsC5.getD 0 dfltSeg) = true := by
    norm_num [isCandidate, insideGtSeg, insideRegressRange, leftDist, rightDist,
      cfgC1, segsC5, pointC3, dfltSeg]
  have hlen : segLen (segsC5.getD 0 dfltSeg) = 4 := by
    norm_num [segLen, segsC5, dfltSeg]
  have hmin : minLen cfgC1 segsC5 pointC3 = ((4 : ℚ) : WithTop ℚ) := by
    unfold minLen
    have hl : segsC5.length = 1 := rfl
    rw [hl, Finset.range_one, Finset.inf_singleton]
    unfold maskedLenAt
    rw [if_pos hcand, hlen]
  have htie : ((segLen (segsC5.getD 0 dfltSeg) : ℚ) : WithTop ℚ) ≤
      minLen cfgC1 segsC5 pointC3 + ((1 : ℚ) / 1000 : ℚ) := by
    rw [hmin, hlen, ← WithTop.coe_add]
    exact WithTop.coe_le_coe.mpr (by norm_num)
  have h1 : cls_targets_at cfgC1 segsC5 [0] pointC3 (([0] : List ℕ).getD 0 0) = 1 :=
    cls_target_one_of_tie cfgC1 segsC5 [0] pointC3 0 (by simp [segsC5]) hcand htie
      (by simp [cfgC1])
  have h1x : cls_targets_at cfgC1 segsC5 [0] pointC3 0 = 1 := h1
  exact c5_range_gating cfgC1 segsC5 [0] pointC3 ⟨0, by rw [h1x]; norm_num⟩

/-- C2 (code evaluation at the failing input): with a fully-NaN left
bin distribution row and a finite uniform right row, `decode_offset`
returns a NaN left offset — the masking at line 413 replaces left
entries using the NaN positions of the *right* distribution, so the
left NaN survives into the expectation — while the right offset is
decoded normally.  The intended masking (each distribution by its own
NaN positions) would have zeroed the left row. -/
theorem c2_left_nan_escapes :
    decoded_offset_left 2 [none, none] [some (1 / 2), some (1 / 2)] = none ∧
      decoded_offset_right 2 [some (1 / 2), some (1 / 2)] = some (1 / 2) ∧
      masked_left_dis [none, none] [some (1 / 2), some (1 / 2)] =
        [none, none] := by
  refine ⟨rfl, ?_, rfl⟩
  show fpSum (List.zipWith fpMulConst
    (masked_right_dis [some (1 / 2), some (1 / 2)]) (right_range_idx 2)) =
    some (1 / 2)
  simp [masked_right_dis, right_range_idx, fpSum, fpAdd, fpMulConst, fpIsNan,
    List.range_succ]

/-- Congruence helper for the flattened score: the value only depends
on the values of the two recovered indices. -/
theorem masked_prob_val_congr (tl c c2 : ℕ) (h2 : c2 ≠ 0) (σ : ℚ → ℚ)
    (cls : Fin tl → Fin c → ℚ) (clip : Fin tl → Fin c2 → ℚ)
    (mask : Fin tl → Bool) (t a : Fin tl) (k b : Fin c)
    (ha : a.val = t.val) (hb : b.val = k.val) :
    masked_prob tl c c2 h2 σ cls clip mask a b =
      if mask t then
        (7 / 10 : ℚ) * σ (cls t k) +
          (3 / 10 : ℚ) * σ (clipMaxLogit c2 h2 (clip t))
      else 0 := by
  have hat : a = t := Fin.ext ha
  have hbk : b = k := Fin.ext hb
  subst hat
  subst hbk
  unfold masked_prob combined_prob
  split_ifs with hm
  · simp
  · simp

/-- C6: for every location `t` and primary class `k`, the flattened
per-level score at flat index `t * C + k` equals
`0.7 * sigmoid(cls logit) + 0.3 * sigmoid(max over secondary logits)`
when the location is valid, and exactly `0` when it is masked out. -/
theorem c6_combined_score (tl c c2 : ℕ) (h2 : c2 ≠ 0) (σ : ℚ → ℚ)
    (cls : Fin tl → Fin c → ℚ) (clip : Fin tl → Fin c2 → ℚ)
    (mask : Fin tl → Bool) (t : Fin tl) (k : Fin c)
    (hk : t.val * c + k.val < tl * c) :
    pred_prob_flat tl c c2 h2 σ cls clip mask ⟨t.val * c + k.val, hk⟩ =
      if mask t then
        (7 / 10 : ℚ) * σ (cls t k) +
          (3 / 10 : ℚ) * σ (clipMaxLogit c2 h2 (clip t))
      else 0 := by
  have hc : 0 < c := Nat.pos_of_ne_zero (fun h0 => by
    subst h0
    exact absurd k.isLt (Nat.not_lt_zero _))
  have hdiv : (t.val * c + k.val) / c = t.val := by
    rw [Nat.add_comm, Nat.add_mul_div_right _ _ hc,
      Nat.div_eq_of_lt k.isLt, Nat.zero_add]
  have hmod : (t.val * c + k.val) % c = k.val := by
    rw [Nat.add_comm, Nat.add_mul_mod_self_right, Nat.mod_eq_of_lt k.isLt]
  unfold pred_prob_flat
  exact masked_prob_val_congr tl c c2 h2 σ cls clip mask t _ k _ hdiv hmod

/-- C6 (witness): a one-location, two-class level with identity
sigmoid, class-1 logit `3`, secondary logit `5`, valid mask: the flat
score at index 1 equals `0.7 * 3 + 0.3 * 5 = 18/5`. -/
theorem c6_witness :
    pred_prob_flat 1 2 1 (by decide) (fun x => x)
      (fun _ k => if k.val = 0 then 2 else 3) (fun _ _ => 5) (fun _ => true)
      ⟨(0 : Fin 1).val * 2 + (⟨1, by decide⟩ : Fin 2).val, by decide⟩ =
      18 / 5 := by
  have h := c6_combined_score 1 2 1 (by decide) (fun x => x)
    (fun _ k => if k.val = 0 then 2 else 3) (fun _ _ => 5) (fun _ => true)
    (0 : Fin 1) (⟨1, by decide⟩ : Fin 2) (by decide)
  rw [h]
  norm_num [clipMaxLogit, Finset.sup'_const]

/-- C7 (amended): the returned final loss equals
`0.3 * cls_loss + 0.4 * clip_loss + 0.3 * reg_loss * w`, where `w` is
the configured static loss weight when positive and otherwise the
detached ratio of the classification loss to the *maximum of the
regression loss and 0.01*. -/
theorem c7_final_loss_combination (focal : ℚ → ℚ → ℚ)
    (giou diou : ℚ × ℚ → ℚ × ℚ → ℚ) (cfg : LossCfg) (rows : List LossRow) :
    final_loss_of focal giou diou cfg rows =
      (3 / 10 : ℚ) * cls_loss_of focal giou cfg rows +
        (4 / 10 : ℚ) * clip_loss_of focal cfg rows +
        (3 / 10 : ℚ) * reg_loss_of diou cfg rows *
          (if 0 < cfg.loss_weight then cfg.loss_weight
           else cls_loss_of focal giou cfg rows /
             max (reg_loss_of diou cfg rows) (1 / 100 : ℚ)) := by
  simp only [final_loss_of, loss_weight_used]
  split_ifs with h
  · ring
  · ring

/-- C7 (counterexample): with the fallback branch active and a
regression loss of `1/400 < 0.01`, the code's final loss (`31/40`,
using `max(reg_loss, 0.01)` in the denominator) differs from the
claim's final loss (`1`, using the plain ratio). -/
theorem c7_counterexample :
    final_loss_of (fun _ _ => 1) (fun _ _ => 0) (fun _ _ => 1 / 400)
        lossCfgC7 lossRowsC7 ≠
      final_loss_claimed
        (cls_loss_of (fun _ _ => 1) (fun _ _ => 0) lossCfgC7 lossRowsC7)
        (clip_loss_of (fun _ _ => 1) lossCfgC7 lossRowsC7)
        (reg_loss_of (fun _ _ => 1 / 400) lossCfgC7 lossRowsC7)
        lossCfgC7.loss_weight := by
  have h1 : cls_loss_of (fun _ _ => (1 : ℚ)) (fun _ _ => 0) lossCfgC7 lossRowsC7
      = 1 := by
    norm_num [cls_loss_of, loss_normalizer_out, num_pos, row_pos,
      smoothTarget, lossRowsC7, lossCfgC7, List.filter]
  have h2 : clip_loss_of (fun _ _ => (1 : ℚ)) lossCfgC7 lossRowsC7 = 1 := by
    norm_num [clip_loss_of, loss_normalizer_out, num_pos, row_pos,
      smoothTarget, lossRowsC7, lossCfgC7, List.filter]
  have h3 : reg_loss_of (fun _ _ => (1 : ℚ) / 400) lossCfgC7 lossRowsC7
      = 1 / 400 := by
    norm_num [reg_loss_of, pred_offsets_sel, gt_offsets_sel, vid_indices,
      loss_normalizer_out, num_pos, row_pos, lossRowsC7, lossCfgC7,
      List.filter, List.enum, List.filterMap_cons, List.filterMap_nil,
      List.zip_cons_cons]
  have hfin : final_loss_of (fun _ _ => (1 : ℚ)) (fun _ _ => 0)
      (fun _ _ => 1 / 400) lossCfgC7 lossRowsC7 = 31 / 40 := by
    simp only [final_loss_of, loss_weight_used, h1, h2, h3]
    norm_num [lossCfgC7]
  have hclaim : final_loss_claimed 1 1 (1 / 400) lossCfgC7.loss_weight = 1 := by
    norm_num [final_loss_claimed, lossCfgC7]
  rw [hfin, h1, h2, h3, hclaim]
  norm_num

/-- Selecting a constant for every nonzero entry is a replicate of the
nonzero count. -/
theorem filterMap_if_const_replicate {α : Type} (l : List ℚ) (a : α) :
    l.filterMap (fun v => if v ≠ 0 then some a else none) =
      List.replicate (l.countP (fun v => decide (v ≠ 0))) a := by
  induction l with
  | nil => rfl
  | cons v vs ih =>
    by_cases hv : v ≠ 0
    · simpa [List.filterMap_cons, List.countP_cons, hv, List.replicate_succ]
        using ih
    · simpa [List.filterMap_cons, List.countP_cons, hv] using ih

/-- Counting a predicate on second components of a zip of equal-length
lists counts it on the second list. -/
theorem countP_zip_snd {α β : Type} (q : β → Bool) :
    ∀ (l1 : List α) (l2 : List β), l1.length = l2.length →
      (l1.zip l2).countP (fun p => q p.2) = l2.countP q := by
  intro l1
  induction l1 with
  | nil =>
    intro l2 h
    cases l2 with
    | nil => rfl
    | cons b bs => simp at h
  | cons a as ih =>
    intro l2 h
    cases l2 with
    | nil => simp at h
    | cons b bs =>
      simp only [List.zip_cons_cons, List.countP_cons,
        ih bs (by simpa using h)]

/-- The length of an if-guarded `filterMap` is the count of the
guard. -/
theorem length_filterMap_if {α β : Type} (P : α → Prop) [DecidablePred P]
    (f : α → β) (l : List α) :
    (l.filterMap (fun x => if P x then some (f x) else none)).length =
      l.countP (fun x => decide (P x)) := by
  induction l with
  | nil => rfl
  | cons x xs ih =>
    by_cases hx : P x
    · simp [List.filterMap_cons, List.countP_cons, hx, ih]
    · simp [List.filterMap_cons, List.countP_cons, hx, ih]

/-- Zipping with a replicate of matching length pairs every element
with the constant. -/
theorem zip_replicate_right {α β : Type} (a : β) :
    ∀ (l : List α) (n : ℕ), l.length = n →
      l.zip (List.replicate n a) = l.map (fun x => (x, a)) := by
  intro l
  induction l with
  | nil => intro n h; simp
  | cons x xs ih =>
    intro n h
    cases n with
    | zero => simp at h
    | succ m => simp [List.replicate_succ, ih m (by simpa using h)]

/-- Mapping over an if-guarded `filterMap` composes into the guard. -/
theorem map_filterMap_if {α β γ : Type} (P : α → Prop) [DecidablePred P]
    (f : α → β) (g : β → γ) (l : List α) :
    (l.filterMap (fun x => if P x then some (f x) else none)).map g =
      l.filterMap (fun x => if P x then some (g (f x)) else none) := by
  rw [List.map_filterMap]
  simp only [apply_ite (Option.map g), Option.map_some', Option.map_none']

/-- Summing an if-guarded `filterMap` is summing the if-else-zero
map. -/
theorem sum_filterMap_if {α : Type} (P : α → Prop) [DecidablePred P]
    (f : α → ℚ) (l : List α) :
    (l.filterMap (fun x => if P x then some (f x) else none)).sum =
      (l.map (fun x => if P x then f x else 0)).sum := by
  induction l with
  | nil => rfl
  | cons x xs ih =>
    by_cases hx : P x
    · simp [List.filterMap_cons, hx, ih]
    · simp [List.filterMap_cons, hx, ih]

/-- Sum of a map over a `flatMap` is the sum of per-block sums. -/
theorem sum_map_flatMap {α β : Type} (L : List α) (f : α → List β)
    (g : β → ℚ) :
    ((L.flatMap f).map g).sum = (L.map (fun r => ((f r).map g).sum)).sum := by
  induction L with
  | nil => rfl
  | cons r L' ih => simp [List.flatMap_cons, List.map_append, List.sum_append, ih]

/-- The gathered `vid` indices, mapped through row lookup, replicate
each positive row's ground-truth offset once per nonzero target
entry. -/
theorem vid_map_getD_eq (d : LossRow) :
    ∀ (L full : List LossRow) (n : ℕ),
      (∀ j, j < L.length → full.getD (n + j) d = L.getD j d) →
      ((List.enumFrom n L).flatMap (fun ia =>
          ia.2.gt_cls.filterMap (fun v => if v ≠ 0 then some ia.1 else none))).map
          (fun k => (full.getD k d).gt_offset) =
        L.flatMap (fun r =>
          List.replicate (r.gt_cls.countP (fun v => decide (v ≠ 0)))
            r.gt_offset) := by
  intro L
  induction L with
  | nil => intro full n h; rfl
  | cons r L' ih =>
    intro full n h
    rw [List.enumFrom_cons]
    simp only [List.flatMap_cons]
    rw [List.map_append]
    congr 1
    · rw [filterMap_if_const_replicate, List.map_replicate]
      have h0 := h 0 (by simp)
      rw [Nat.add_zero] at h0
      rw [h0]
      simp [List.getD_cons_zero]
    · refine ih full (n + 1) fun j hj => ?_
      have hh := h (j + 1) (by simpa using Nat.succ_lt_succ hj)
      rw [show n + (j + 1) = n + 1 + j from by omega] at hh
      simpa [List.getD_cons_succ] using hh

/-- The gathered ground-truth offsets are, row-major, one copy of each
positive row's offset per nonzero target entry. -/
theorem gt_offsets_sel_eq (rows : List LossRow) :
    gt_offsets_sel rows =
      (rows.filter row_pos).flatMap (fun r =>
        List.replicate (r.gt_cls.countP (fun v => decide (v ≠ 0)))
          r.gt_offset) := by
  unfold gt_offsets_sel vid_indices
  exact vid_map_getD_eq dfltLossRow (rows.filter row_pos)
    (rows.filter row_pos) 0 (fun j hj => by rw [Nat.zero_add])

/-- Zipping the selected predicted offsets with the gathered
ground-truth offsets pairs every positive class entry with its own
row's ground-truth offset. -/
theorem pred_zip_gt_sel (rows : List LossRow)
    (hlen : ∀ r ∈ rows.filter row_pos, r.decoded.length = r.gt_cls.length) :
    (pred_offsets_sel rows).zip (gt_offsets_sel rows) =
      (rows.filter row_pos).flatMap (fun r =>
        (r.decoded.zip r.gt_cls).filterMap (fun p =>
          if p.2 ≠ 0 then some (p.1, r.gt_offset) else none)) := by
  rw [gt_offsets_sel_eq]
  unfold pred_offsets_sel
  generalize (rows.filter row_pos) = L at hlen ⊢
  induction L with
  | nil => rfl
  | cons r L' ih =>
    simp only [List.flatMap_cons]
    have hcnt : ((r.decoded.zip r.gt_cls).filterMap (fun p =>
        if p.2 ≠ 0 then some p.1 else none)).length =
        r.gt_cls.countP (fun v => decide (v ≠ 0)) := by
      rw [length_filterMap_if]
      exact countP_zip_snd (fun v => decide (v ≠ 0)) r.decoded r.gt_cls
        (hlen r (List.mem_cons_self r L'))
    rw [List.zip_append (hcnt.trans (List.length_replicate _ _).symm)]
    congr 1
    · rw [zip_replicate_right r.gt_offset _ _ hcnt,
        map_filterMap_if (fun p : (ℚ × ℚ) × ℚ => p.2 ≠ 0)]
    · exact ih fun x hx => hlen x (List.mem_cons_of_mem r hx)

/-- C8: with zero positive locations, `losses` returns a regression
loss equal to zero (the code's `0 * pred_offsets.sum()`); otherwise
the regression loss is the distance-IoU loss of each positive class
entry against its own row's ground-truth offset, summed over positive
locations only and divided by the loss normalizer. -/
theorem c8_reg_loss (diou : ℚ × ℚ → ℚ × ℚ → ℚ) (cfg : LossCfg)
    (rows : List LossRow) :
    (num_pos rows = 0 → reg_loss_of diou cfg rows = 0) ∧
      ((∀ r ∈ rows.filter row_pos, r.decoded.length = r.gt_cls.length) →
        num_pos rows ≠ 0 →
        reg_loss_of diou cfg rows =
          ((rows.filter row_pos).map (fun r =>
            ((r.decoded.zip r.gt_cls).map (fun p =>
              if p.2 ≠ 0 then diou p.1 r.gt_offset else 0)).sum)).sum /
            loss_normalizer_out cfg rows) := by
  constructor
  · intro h0
    unfold reg_loss_of
    rw [if_pos h0]
    ring
  · intro hlen hne
    unfold reg_loss_of
    rw [if_neg hne, pred_zip_gt_sel rows hlen, sum_map_flatMap]
    congr 1
    refine congrArg List.sum (List.map_congr_left fun r _ => ?_)
    rw [map_filterMap_if (fun p : (ℚ × ℚ) × ℚ => p.2 ≠ 0),
      sum_filterMap_if (fun p : (ℚ × ℚ) × ℚ => p.2 ≠ 0)]

/-- C8 (witness): the theorem applied to an empty batch (zero
positives give a zero regression loss) and to the concrete one-row
positive batch. -/
theorem c8_witness :
    reg_loss_of (fun _ _ => (1 : ℚ) / 400) lossCfgC7 [] = 0 ∧
      reg_loss_of (fun _ _ => (1 : ℚ) / 400) lossCfgC7 lossRowsC7 =
        ((lossRowsC7.filter row_pos).map (fun r =>
          ((r.decoded.zip r.gt_cls).map (fun p =>
            if p.2 ≠ 0 then (fun _ _ => (1 : ℚ) / 400) p.1 r.gt_offset
            else 0)).sum)).sum /
          loss_normalizer_out lossCfgC7 lossRowsC7 := by
  constructor
  · exact (c8_reg_loss (fun _ _ => (1 : ℚ) / 400) lossCfgC7 []).1 rfl
  · refine (c8_reg_loss (fun _ _ => (1 : ℚ) / 400) lossCfgC7 lossRowsC7).2 ?_ ?_
    · intro r hr
      have hr' : r = (⟨true, [1], [1], [0], [0], (1, 1), [(1, 1)]⟩ : LossRow) := by
        norm_num [lossRowsC7, row_pos, List.filter] at hr
        exact hr
      subst hr'
      rfl
    · norm_num [num_pos, row_pos, lossRowsC7, List.filter]

/-- C9: the grid-to-seconds conversion followed by the two
truncations clamps the mapped value to `[0, vlen]`; concretely, grid
value 10 with stride 4, 16 frames and fps 25 maps to `48/25 = 1.92`,
and with duration `3/2` the truncated value is exactly `3/2`. -/
theorem c9_time_mapping (stride nframes fps vlen g : ℚ) (hv : 0 ≤ vlen) :
    convertSeg stride nframes fps vlen g =
      min vlen (max 0 ((g * stride + (1 / 2 : ℚ) * nframes) / fps)) ∧
      toRealTime 4 16 25 10 = 48 / 25 ∧
      convertSeg 4 16 25 (3 / 2) 10 = 3 / 2 := by
  refine ⟨?_, by norm_num [toRealTime],
    by norm_num [convertSeg, clipLow, clipHigh, toRealTime]⟩
  unfold convertSeg clipLow clipHigh toRealTime
  split_ifs with h1 h2 h3 <;>
    simp_all [min_def, max_def] <;> split_ifs <;> linarith

/-- C9 (witness): the mapping theorem instantiated at the spec's
concrete postprocessing scenario. -/
theorem c9_witness :
    convertSeg 4 16 25 (3 / 2) 10 =
      min (3 / 2 : ℚ) (max 0 ((10 * 4 + (1 / 2 : ℚ) * 16) / 25)) ∧
      toRealTime 4 16 25 10 = 48 / 25 :=
  ⟨(c9_time_mapping 4 16 25 (3 / 2) 10 (by norm_num)).1,
   (c9_time_mapping 4 16 25 (3 / 2) 10 (by norm_num)).2.1⟩

/-- A result row with all meta entries present postprocesses to a row
with the meta entries dropped and scores/labels preserved. -/
theorem postprocessOne_of_wf (r : PPResult)
    (h : r.fps.isSome ∧ r.duration.isSome ∧ r.feat_stride.isSome ∧
      r.feat_num_frames.isSome) :
    ∃ r', postprocessOne r = some r' ∧ r'.fps = none ∧
      r'.scores = r.scores ∧ r'.labels = r.labels := by
  obtain ⟨f, hf⟩ := Option.isSome_iff_exists.mp h.1
  obtain ⟨d, hd⟩ := Option.isSome_iff_exists.mp h.2.1
  obtain ⟨s, hs⟩ := Option.isSome_iff_exists.mp h.2.2.1
  obtain ⟨n, hn⟩ := Option.isSome_iff_exists.mp h.2.2.2
  unfold postprocessOne
  rw [hf, hd, hs, hn]
  exact ⟨_, rfl, rfl, rfl, rfl⟩

/-- A well-formed result list postprocesses to a list of equal length
whose rows all lost their `fps` entry, with scores and labels
preserved. -/
theorem postprocessing_of_wf :
    ∀ rs : List PPResult,
      (∀ r ∈ rs, r.fps.isSome ∧ r.duration.isSome ∧ r.feat_stride.isSome ∧
        r.feat_num_frames.isSome) →
      ∃ out, postprocessing rs = some out ∧ out.length = rs.length ∧
        (∀ r' ∈ out, r'.fps = none) ∧
        out.map PPResult.scores = rs.map PPResult.scores ∧
        out.map PPResult.labels = rs.map PPResult.labels := by
  intro rs
  induction rs with
  | nil => exact fun h => ⟨[], rfl, rfl, by simp, rfl, rfl⟩
  | cons r rs' ih =>
    intro h
    obtain ⟨r', hr', hfn, hsc, hlb⟩ :=
      postprocessOne_of_wf r (h r (List.mem_cons_self r rs'))
    obtain ⟨out', hout', hlen', hfn', hsc', hlb'⟩ :=
      ih fun x hx => h x (List.mem_cons_of_mem r hx)
    refine ⟨r' :: out', ?_, by simp [hlen'], ?_, ?_, ?_⟩
    · unfold postprocessing at hout' ⊢
      rw [List.mapM_cons, hr', hout']
      rfl
    · intro x hx
      rcases List.mem_cons.mp hx with rfl | hx
      · exact hfn
      · exact hfn' x hx
    · simp [hsc, hsc']
    · simp [hlb, hlb']

/-- Postprocessing a list whose head lacks the `fps` entry fails with
a missing-key lookup. -/
theorem postprocessing_fps_none_head (r : PPResult) (rs' : List PPResult)
    (hr : r.fps = none) : postprocessing (r :: rs') = none := by
  unfold postprocessing
  rw [List.mapM_cons]
  unfold postprocessOne
  rw [hr]
  rfl

/-- C4 (amended): with `nms_method = 'none'`, one application of
`postprocessing` preserves scores and labels, but its output drops
the meta entries, so a second application fails with a missing-key
lookup on any nonempty well-formed result list; only on the empty list
is postprocessing idempotent. -/
theorem c4_postprocessing_not_reapplicable (rs : List PPResult)
    (hne : rs ≠ [])
    (hwf : ∀ r ∈ rs, r.fps.isSome ∧ r.duration.isSome ∧
      r.feat_stride.isSome ∧ r.feat_num_frames.isSome) :
    (∃ out, postprocessing rs = some out ∧
      out.map PPResult.scores = rs.map PPResult.scores ∧
      out.map PPResult.labels = rs.map PPResult.labels) ∧
      (postprocessing rs).bind postprocessing = none ∧
      (postprocessing ([] : List PPResult)).bind postprocessing =
        postprocessing ([] : List PPResult) := by
  obtain ⟨out, hout, hlen, hfn, hsc, hlb⟩ := postprocessing_of_wf rs hwf
  refine ⟨⟨out, hout, hsc, hlb⟩, ?_, rfl⟩
  rw [hout]
  cases out with
  | nil =>
    cases rs with
    | nil => exact absurd rfl hne
    | cons a b => simp at hlen
  | cons o os =>
    show postprocessing (o :: os) = none
    exact postprocessing_fps_none_head o os (hfn o (List.mem_cons_self o os))

/-- C4 (counterexample): on a concrete one-video result list whose
segments are already real-time and already clipped, applying
`postprocessing` twice (`none`) differs from applying it once
(`some` of the converted list), so postprocessing is not idempotent. -/
theorem c4_counterexample :
    (postprocessing ppResultsC4).bind postprocessing ≠
      postprocessing ppResultsC4 := by
  have hwf : ∀ r ∈ ppResultsC4, r.fps.isSome ∧ r.duration.isSome ∧
      r.feat_stride.isSome ∧ r.feat_num_frames.isSome := by
    intro r hr
    simp only [ppResultsC4, List.mem_singleton] at hr
    subst hr
    exact ⟨rfl, rfl, rfl, rfl⟩
  obtain ⟨out, hout, hlen, hfn, hsc, hlb⟩ :=
    postprocessing_of_wf ppResultsC4 hwf
  rw [hout]
  cases out with
  | nil => simp [ppResultsC4] at hlen
  | cons o os =>
    have hno : postprocessing (o :: os) = none :=
      postprocessing_fps_none_head o os (hfn o (List.mem_cons_self o os))
    show (some (o :: os)).bind postprocessing ≠ some (o :: os)
    simp [hno]

/-- C4 (witness): the amended theorem applied to the concrete
one-video result list. -/
theorem c4_witness :
    (postprocessing ppResultsC4).bind postprocessing = none :=
  (c4_postprocessing_not_reapplicable ppResultsC4 (by simp [ppResultsC4])
    (by
      intro r hr
      simp only [ppResultsC4, List.mem_singleton] at hr
      subst hr
      exact ⟨rfl, rfl, rfl, rfl⟩)).2.1

/-- C10: modelling the in-place dictionary mutation by explicit state
passing, after the feature-fusion loop of `forward` every record of
the video list carries `concatenated_feats` equal to the concatenation
of the residual-projected primary and clip features; in particular a
record that lacked the key is not left unchanged. -/
theorem c10_forward_inserts (fcF fcC : List ℚ → List ℚ) (vs : List VideoRec)
    (i : ℕ) (hi : i < vs.length) :
    ((forward_prep fcF fcC vs).getD i dfltVideoRec).concatenated_feats =
      some (concat_feats fcF fcC (vs.getD i dfltVideoRec).feats
        (vs.getD i dfltVideoRec).clip_feats) ∧
      ((vs.getD i dfltVideoRec).concatenated_feats = none →
        (forward_prep fcF fcC vs).getD i dfltVideoRec ≠
          vs.getD i dfltVideoRec) := by
  have hmap : (forward_prep fcF fcC vs).getD i dfltVideoRec =
      { vs.getD i dfltVideoRec with
        concatenated_feats := some (concat_feats fcF fcC
          (vs.getD i dfltVideoRec).feats
          (vs.getD i dfltVideoRec).clip_feats) } := by
    unfold forward_prep
    rw [List.getD_eq_getElem?_getD, List.getD_eq_getElem vs dfltVideoRec hi,
      List.getElem?_map, List.getElem?_eq_getElem hi]
    rfl
  constructor
  · rw [hmap]
  · intro h0 heq
    rw [hmap] at heq
    have hproj := congrArg VideoRec.concatenated_feats heq
    rw [List.getD_eq_getElem?_getD] at h0
    simp [h0] at hproj

/-- C10 (witness): the insertion theorem applied to a concrete record
without the key: the post-call record differs from the input record. -/
theorem c10_witness :
    ((forward_prep (fun v => v) (fun v => v)
        [videoRecC10]).getD 0 dfltVideoRec).concatenated_feats =
      some (concat_feats (fun v => v) (fun v => v) videoRecC10.feats
        videoRecC10.clip_feats) ∧
      (forward_prep (fun v => v) (fun v => v)
        [videoRecC10]).getD 0 dfltVideoRec ≠ videoRecC10 :=
  ⟨(c10_forward_inserts (fun v => v) (fun v => v) [videoRecC10] 0
      (by simp)).1,
   (c10_forward_inserts (fun v => v) (fun v => v) [videoRecC10] 0
      (by simp)).2 rfl⟩

/-- C1 (counterexample): the point `pointC1` is a candidate for no
segment of `segsC1`, its classification targets are all zero, yet its
regression target is `(10, -9) ≠ (0, 0)`: the claim that candidate-free
points receive a `(0, 0)` regression target is false. -/
theorem c1_counterexample :
    (∀ s ∈ segsC1, isCandidate cfgC1 pointC1 s = false) ∧
      cls_targets_at cfgC1 segsC1 labelsC1 pointC1 0 = 0 ∧
      cls_targets_at cfgC1 segsC1 labelsC1 pointC1 1 = 0 ∧
      reg_targets_at cfgC1 segsC1 pointC1 = (10, -9) ∧
      reg_targets_at cfgC1 segsC1 pointC1 ≠ (0, 0) := by
  have hreg : reg_targets_at cfgC1 segsC1 pointC1 = (10, -9) := by
    simp [reg_targets_at, argminLen, argminGo, leftDist, rightDist,
      segsC1, pointC1, cfgC1, dfltSeg]
    norm_num
  have hcand : ∀ s ∈ segsC1, isCandidate cfgC1 pointC1 s = false := by
    intro s hs
    simp only [segsC1, List.mem_singleton] at hs
    subst hs
    norm_num [isCandidate, insideGtSeg, insideRegressRange, leftDist,
      rightDist, cfgC1, pointC1]
  have hcls : ∀ c, cls_targets_at cfgC1 segsC1 labelsC1 pointC1 c = 0 := by
    intro c
    have hz : clsTargetRaw cfgC1 segsC1 labelsC1 pointC1 c = 0 := by
      unfold clsTargetRaw
      refine Finset.sum_eq_zero fun i hi => ?_
      rw [tieMask_false_of_no_candidate cfgC1 segsC1 pointC1 hcand i
        (Finset.mem_range.mp hi)]
      simp
    unfold cls_targets_at
    rw [hz]
    simp [clamp01]
  refine ⟨hcand, hcls 0, hcls 1, hreg, ?_⟩
  rw [hreg]
  simp

/-- C1 (witness): the amended theorem applied to a video with no
ground-truth segments. -/
theorem c1_witness :
    cls_targets_at cfgC1 [] [] pointC1 0 = 0 ∧
      reg_targets_at cfgC1 [] pointC1 = (0, 0) :=
  ⟨(c1_no_candidate_targets cfgC1 [] [] pointC1 (by simp)).1 0,
   (c1_no_candidate_targets cfgC1 [] [] pointC1 (by simp)).2.2 rfl⟩

end TAD
